import Mathlib

/-!
Verification of the hash-table core of the repository
(src/app/hash_table.py, src/main.py), a fixed-capacity associative
container with double hashing and tombstone deletion.

Shallow embedding conventions:
  a Python string is a list of character codes (Key := List Nat);
  a Python value is an element of Option V (Python None is none);
  the slot array holds a tagged Slot: empty models the Python None slot,
  deleted models the identity-compared deleted marker object, junk models
  any other non-tuple object (for instance the empty list that the
  clear_table function of src/main.py writes into every slot), and
  occupied models a stored (key, value) tuple;
  the element counter is an Int, since the Python attribute count is an
  unbounded signed integer;
  the bounded probe loop "for i in range(self.size)" is embedded as
  structural recursion on the remaining number of iterations.
-/

abbrev Key := List Nat

inductive Slot (V : Type) where
  | empty : Slot V
  | deleted : Slot V
  | junk : Slot V
  | occupied : Key → Option V → Slot V
  deriving DecidableEq

structure HashTable (V : Type) where
  size : Nat
  table : List (Slot V)
  count : Int
  deriving DecidableEq

/-- Constructor of src/app/hash_table.py: table of the given size, every
slot holding Python None, count zero. -/
def HashTable.init (V : Type) (size : Nat) : HashTable V :=
  ⟨size, List.replicate size Slot.empty, 0⟩

def isDigitCode (c : Nat) : Bool := 48 ≤ c && c ≤ 57

def isUpperCode (c : Nat) : Bool := 65 ≤ c && c ≤ 90

/-- KEY_PATTERN of src/app/hash_table.py: three digits, one uppercase
letter, two digits (the regex match restricted to ASCII keys). -/
def validate_key (key : Key) : Bool :=
  match key with
  | [c1, c2, c3, c4, c5, c6] =>
      isDigitCode c1 && isDigitCode c2 && isDigitCode c3 &&
      isUpperCode c4 && isDigitCode c5 && isDigitCode c6
  | _ => false

/-- Polynomial left fold shared by hash1 and hash2: every step multiplies
by the base, adds the character code and reduces modulo the table size. -/
def polyHash (base size : Nat) (key : Key) : Nat :=
  key.foldl (fun h c => (h * base + c) % size) 0

/-- hash1 of src/app/hash_table.py: polynomial hash with multiplier 31. -/
def hash1 (size : Nat) (key : Key) : Nat := polyHash 31 size key

/-- hash2 of src/app/hash_table.py: polynomial hash with multiplier 37,
then a zero result is replaced by 1 and, when the size is even, an even
result is incremented to make it odd. -/
def hash2 (size : Nat) (key : Key) : Nat :=
  let h0 := polyHash 37 size key
  let h1 := if h0 = 0 then 1 else h0
  if size % 2 = 0 && h1 % 2 = 0 then h1 + 1 else h1

/-- Reading the slot array at an index; the default is irrelevant because
every access in the source is through an index reduced modulo the size. -/
def slotAt (l : List (Slot V)) (i : Nat) : Slot V := l.getD i Slot.empty

/-- Loop body of HashTable.find_position in src/app/hash_table.py. The argument i is
the loop counter and fuel is the number of remaining iterations, so the
call with i = 0 and fuel = size is the Python loop for i in range(size).
On an empty slot the loop returns the index when inserting and fails
otherwise; on the deleted marker the Python code executes continue when
inserting, and when not inserting it falls through to the tuple check,
which also fails, so both modes continue probing; a non-tuple non-marker
object (junk) likewise fails the tuple check and the loop continues; an
occupied slot returns its index exactly when its key equals the probe
key. -/
def findPosAux (tbl : List (Slot V)) (size : Nat) (key : Key)
    (h1 h2 : Nat) (forIns : Bool) (i fuel : Nat) : Option Nat :=
  match fuel with
  | 0 => none
  | fuel + 1 =>
    match slotAt tbl ((h1 + i * h2) % size) with
    | Slot.empty => if forIns then some ((h1 + i * h2) % size) else none
    | Slot.deleted => findPosAux tbl size key h1 h2 forIns (i + 1) fuel
    | Slot.junk => findPosAux tbl size key h1 h2 forIns (i + 1) fuel
    | Slot.occupied k _ =>
        if k = key then some ((h1 + i * h2) % size)
        else findPosAux tbl size key h1 h2 forIns (i + 1) fuel

/-- HashTable.find_position of src/app/hash_table.py: validate the key, then probe
the double-hashing sequence for at most size iterations. -/
def HashTable.find_position (t : HashTable V) (key : Key) (forIns : Bool) : Option Nat :=
  if validate_key key then
    findPosAux t.table t.size key (hash1 t.size key) (hash2 t.size key)
      forIns 0 t.size
  else none

/-- HashTable.add of src/app/hash_table.py. The overflow guard is the nested pair of
Python conditions count greater-or-equal 0.9 times size and count
greater-or-equal size; the outer floating-point comparison is embedded as
the exact rational comparison 9 times size at most 10 times count (for the
shipped sizes the double rounding of size times 0.9 agrees with the exact
value, and the guard refuses exactly when additionally count reaches
size). -/
def HashTable.add (t : HashTable V) (key : Key) (value : Option V) :
    HashTable V × Bool :=
  if ¬ validate_key key then (t, false)
  else if (t.size : Int) * 9 ≤ t.count * 10 ∧ (t.size : Int) ≤ t.count then
    (t, false)
  else
    match HashTable.find_position t key false with
    | some pos =>
        ({ t with table := t.table.set pos (Slot.occupied key value) }, true)
    | none =>
      match HashTable.find_position t key true with
      | some pos =>
          ({ t with
              table := t.table.set pos (Slot.occupied key value)
              count := t.count + 1 }, true)
      | none => (t, false)

/-- HashTable.get of src/app/hash_table.py: the stored value of the slot returned by
HashTable.find_position, or None. The non-occupied inner branch is unreachable (the
Python code would raise on subscripting a non-tuple). -/
def HashTable.get (t : HashTable V) (key : Key) : Option V :=
  match HashTable.find_position t key false with
  | some pos =>
    match slotAt t.table pos with
    | Slot.occupied _ v => v
    | _ => none
  | none => none

/-- HashTable.search_by_key of src/app/hash_table.py: segment index, key and value
of the slot found by HashTable.find_position. -/
def HashTable.search_by_key (t : HashTable V) (key : Key) :
    Option (Nat × Key × Option V) :=
  match HashTable.find_position t key false with
  | some pos =>
    match slotAt t.table pos with
    | Slot.occupied k v => some (pos, k, v)
    | _ => none
  | none => none

/-- Probe positions of the deleted key, accumulated by the first loop of
the collision search in src/app/hash_table.py: positions of the double
hashing sequence from i = 0 up to and including the first occurrence of
the deleted position, at most size entries. -/
def deletedPath (size h1 h2 dpos : Nat) (i fuel : Nat) : List Nat :=
  match fuel with
  | 0 => []
  | fuel + 1 =>
    let p := (h1 + i * h2) % size
    if p = dpos then [p] else p :: deletedPath size h1 h2 dpos (i + 1) fuel

/-- Second loop of the collision search of src/app/hash_table.py, run on
the table as it is after the slot was marked deleted: every stored tuple
whose key differs from the deleted key contributes its key when its
primary hash equals the primary hash of the deleted key, or otherwise when
both its index and its own primary hash lie on the probe path of the
deleted key. Duplicates are removed at the end, as by the Python
expression list of set (the embedding fixes the dedup order, the set of
members is the same). -/
def HashTable.find_collision_elements (t : HashTable V) (dkey : Key) (dpos : Nat) :
    List Key :=
  let h1d := hash1 t.size dkey
  let h2d := hash2 t.size dkey
  let path := deletedPath t.size h1d h2d dpos 0 t.size
  ((List.range t.size).filterMap fun i =>
    match slotAt t.table i with
    | Slot.occupied k _ =>
        if k = dkey then none
        else if hash1 t.size k = h1d then some k
        else if i ∈ path ∧ hash1 t.size k ∈ path then some k
        else none
    | _ => none).dedup

/-- HashTable.delete of src/app/hash_table.py: locate the key as in a lookup, mark
the slot with the deleted marker, decrement the counter and compute the
collision keys on the mutated table. -/
def HashTable.delete (t : HashTable V) (key : Key) :
    HashTable V × Bool × List Key :=
  match HashTable.find_position t key false with
  | none => (t, false, [])
  | some pos =>
    let dkey := match slotAt t.table pos with
                | Slot.occupied k _ => k
                | _ => key
    let t2 : HashTable V :=
      { t with
          table := t.table.set pos Slot.deleted
          count := t.count - 1 }
    (t2, true, HashTable.find_collision_elements t2 dkey pos)

/-- clear_table of src/main.py: assigns a fresh list of empty Python lists
to the table attribute and zeroes count. An empty Python list is neither
None, nor the deleted marker, nor a tuple, hence Slot.junk. -/
def clear_table (t : HashTable V) : HashTable V :=
  { t with table := List.replicate t.size Slot.junk, count := 0 }

/-- Well-formed backing store: the slot list has exactly size entries, as
established by the constructor and preserved by every operation. -/
abbrev HashTable.Wf (t : HashTable V) : Prop := t.table.length = t.size

/-!
Chaining variant. src/main.py is the interactive front end of the chaining
variant of the table (key format one digit, four uppercase letters, one
digit; 1500 segments; buckets holding lists of pairs), but the class it
calls is absent from src/, so the chaining table itself is modelled from
the spec below.
-/

/-- Modelled from the spec: the key validator of the chaining variant is
missing from src/; per the spec the pattern is one digit, four uppercase
letters and one digit. -/
def chain_validate_key (key : Key) : Bool :=
  match key with
  | [c1, c2, c3, c4, c5, c6] =>
      isDigitCode c1 && isUpperCode c2 && isUpperCode c3 &&
      isUpperCode c4 && isUpperCode c5 && isDigitCode c6
  | _ => false

/-- Modelled from the spec: the chaining table, absent from src/, is a
fixed-length sequence of buckets, each an ordered list of key-value
pairs, plus a live-entry counter. -/
structure ChainTable (V : Type) where
  size : Nat
  buckets : List (List (Key × Option V))
  count : Nat
  deriving DecidableEq

/-- Modelled from the spec: the chaining variant hashes with the single
polynomial hash of multiplier 31. -/
def chain_hash (size : Nat) (key : Key) : Nat := polyHash 31 size key

/-- Number of nonempty buckets, the denominator of the average chain
length. -/
def nonemptyBuckets (t : ChainTable V) : Nat :=
  (t.buckets.filter (fun b => !b.isEmpty)).length

/-- Modelled from the spec: the hard part of the chaining capacity policy.
With avg the rational count divided by the number of nonempty buckets
(zero when no bucket is occupied), insertion is refused exactly when avg
exceeds 20, or when every bucket is nonempty and avg exceeds 15; the
comparisons are stated multiplicatively to stay in the integers. -/
def chainRefuse (t : ChainTable V) : Bool :=
  (decide (0 < nonemptyBuckets t) && decide (20 * nonemptyBuckets t < t.count))
  || (t.buckets.all (fun b => !b.isEmpty) &&
      decide (15 * nonemptyBuckets t < t.count))

/-- Modelled from the spec: insertion for the chaining variant, absent
from src/. Validate the key, evaluate the capacity policy before any
mutation, then upsert into the target bucket: overwrite the value of an
existing pair with the same key, otherwise append a fresh pair and
increment the counter. -/
def chainAdd (t : ChainTable V) (key : Key) (value : Option V) :
    ChainTable V × Bool :=
  if ¬ chain_validate_key key then (t, false)
  else if chainRefuse t then (t, false)
  else
    let b := chain_hash t.size key
    let bucket := t.buckets.getD b []
    if bucket.any (fun kv => kv.1 == key) then
      let upd := bucket.map fun kv => if kv.1 = key then (key, value) else kv
      ({ t with buckets := t.buckets.set b upd }, true)
    else
      ({ t with
          buckets := t.buckets.set b (bucket ++ [(key, value)])
          count := t.count + 1 }, true)

/-!
Concrete keys and table states used by the counterexamples and witnesses.
kA, kB and kC are the valid keys 123A45, 123B45 and 999Z99 of the
open-addressing format; kBad is the malformed three-character key 123;
k000C00 is the valid key 000C00 whose secondary hash at the shipped size
2500 is 2055, a multiple of 5; cKey is the valid chaining key 1ABCD2.
-/

def kA : Key := [49, 50, 51, 65, 52, 53]

def kB : Key := [49, 50, 51, 66, 52, 53]

def kC : Key := [57, 57, 57, 90, 57, 57]

def kBad : Key := [49, 50, 51]

def k000C00 : Key := [48, 48, 48, 67, 48, 48]

def cKey : Key := [49, 65, 66, 67, 68, 50]

/-- Size-2 table holding kA, reached by one insertion. -/
def exC2a : HashTable Nat := (HashTable.add (HashTable.init Nat 2) kA (some 1)).1

/-- Size-2 table with a tombstone at slot 0, reached by inserting and then
deleting kA. -/
def exC2b : HashTable Nat := (HashTable.delete exC2a kA).1

/-- Size-1 table whose only slot is a tombstone, reached by inserting and
then deleting kA. -/
def exC5 : HashTable Nat := (HashTable.delete (HashTable.add (HashTable.init Nat 1) kA (some 1)).1 kA).1

/-- Full size-1 table holding kA, reached by one insertion. -/
def exC6 : HashTable Nat := (HashTable.add (HashTable.init Nat 1) kA (some 1)).1

/-- Result of running the clear operation of src/main.py on a size-2 table
holding kA. -/
def exC3 : HashTable Nat := clear_table (HashTable.add (HashTable.init Nat 2) kA (some 1)).1

/-- Size-5 table holding kA and kC, whose primary hashes collide at 0 so
that kC was displaced to slot 3. -/
def exT5 : HashTable Nat :=
  (HashTable.add (HashTable.add (HashTable.init Nat 5) kA (some 1)).1 kC (some 2)).1

/-- Size-2 table holding kA at slot 0 and kB at slot 1. -/
def exT2 : HashTable Nat :=
  (HashTable.add (HashTable.add (HashTable.init Nat 2) kA (some 1)).1 kB (some 2)).1

/-- Chaining table with a single bucket of 21 entries, so the average
chain length 21 exceeds the hard bound 20. -/
def chainFull : ChainTable Nat :=
  ⟨1, [List.replicate 21 (cKey, some 0)], 21⟩

/-- Outcome of one probe-loop iteration of HashTable.find_position on a given slot:
none means the loop continues with the next i, some r means the loop
returns r. Empty slots return the index when inserting and a miss
otherwise; deleted and junk slots continue; occupied slots return their
index exactly on a key match. -/
def stepOf (key : Key) (s : Slot V) (idx : Nat) (b : Bool) :
    Option (Option Nat) :=
  match s with
  | Slot.empty => some (if b then some idx else none)
  | Slot.deleted => none
  | Slot.junk => none
  | Slot.occupied k _ => if k = key then some (some idx) else none

/-- Collision-set membership as worded by claim C8: x is a live key stored
at some index i of the table, distinct from the deleted key, and either
the primary hash of x equals the primary hash of the deleted key, or both
i and the primary hash of x lie on the probe path of the deleted key from
its primary hash up to and including the deleted position. -/
def collidesWith (t : HashTable V) (dkey : Key) (dpos : Nat) (x : Key) :
    Prop :=
  ∃ i v, i < t.size ∧ slotAt t.table i = Slot.occupied x v ∧ x ≠ dkey ∧
    (hash1 t.size x = hash1 t.size dkey ∨
      (i ∈ deletedPath t.size (hash1 t.size dkey) (hash2 t.size dkey)
            dpos 0 t.size ∧
       hash1 t.size x ∈ deletedPath t.size (hash1 t.size dkey)
            (hash2 t.size dkey) dpos 0 t.size))

/-!
Lemmas about slot access and the probe walk.
-/

section WalkLemmas

variable {V : Type}

theorem slotAt_set (l : List (Slot V)) (q j : Nat) (s : Slot V) :
    slotAt (l.set q s) j = if q = j ∧ q < l.length then s else slotAt l j := by
  induction l generalizing q j with
  | nil => simp [slotAt]
  | cons a as ih =>
    cases q with
    | zero =>
      cases j with
      | zero => simp [slotAt]
      | succ j => simp [slotAt]
    | succ q =>
      cases j with
      | zero => simp [slotAt]
      | succ j => simpa [slotAt, Nat.succ_lt_succ_iff] using ih q j

theorem slotAt_set_self (l : List (Slot V)) (q : Nat) (s : Slot V)
    (h : q < l.length) : slotAt (l.set q s) q = s := by
  simp [slotAt_set, h]

theorem slotAt_set_ne (l : List (Slot V)) (q j : Nat) (s : Slot V)
    (h : q ≠ j) : slotAt (l.set q s) j = slotAt l j := by
  simp [slotAt_set, h]

theorem findPosAux_succ (tbl : List (Slot V)) (size : Nat) (key : Key)
    (h1 h2 : Nat) (b : Bool) (i fuel : Nat) :
    findPosAux tbl size key h1 h2 b i (fuel + 1) =
      Option.getD (stepOf key (slotAt tbl ((h1 + i * h2) % size))
          ((h1 + i * h2) % size) b)
        (findPosAux tbl size key h1 h2 b (i + 1) fuel) := by
  cases hs : slotAt tbl ((h1 + i * h2) % size) with
  | empty => simp [findPosAux, stepOf, hs]
  | deleted => simp [findPosAux, stepOf, hs]
  | junk => simp [findPosAux, stepOf, hs]
  | occupied k v =>
    by_cases hk : k = key <;> simp [findPosAux, stepOf, hs, hk]

theorem findPosAux_congr (tbl tbl2 : List (Slot V)) (size : Nat) (key : Key)
    (h1 h2 : Nat) (b : Bool)
    (H : ∀ j, stepOf key (slotAt tbl2 j) j b = stepOf key (slotAt tbl j) j b) :
    ∀ fuel i, findPosAux tbl2 size key h1 h2 b i fuel =
      findPosAux tbl size key h1 h2 b i fuel := by
  intro fuel
  induction fuel with
  | zero => intro i; rfl
  | succ fuel ih =>
    intro i
    rw [findPosAux_succ, findPosAux_succ, H ((h1 + i * h2) % size), ih (i + 1)]

theorem findPosAux_set_congr (tbl : List (Slot V)) (size : Nat) (key : Key)
    (h1 h2 : Nat) (b : Bool) (q : Nat) (s2 : Slot V)
    (h : ∀ idx, stepOf key s2 idx b = stepOf key (slotAt tbl q) idx b) :
    ∀ fuel i, findPosAux (tbl.set q s2) size key h1 h2 b i fuel =
      findPosAux tbl size key h1 h2 b i fuel := by
  apply findPosAux_congr
  intro j
  rw [slotAt_set]
  split
  · next hqj => rw [hqj.1] at h; exact h j
  · rfl

theorem findPosAux_false_some (tbl : List (Slot V)) (size : Nat) (key : Key)
    (h1 h2 : Nat) :
    ∀ fuel i p, findPosAux tbl size key h1 h2 false i fuel = some p →
      ∃ v, slotAt tbl p = Slot.occupied key v := by
  intro fuel
  induction fuel with
  | zero => intro i p h; simp [findPosAux] at h
  | succ fuel ih =>
    intro i p h
    cases hs : slotAt tbl ((h1 + i * h2) % size) with
    | empty => simp [findPosAux, hs] at h
    | deleted => rw [findPosAux, hs] at h; exact ih (i + 1) p h
    | junk => rw [findPosAux, hs] at h; exact ih (i + 1) p h
    | occupied k v =>
      simp only [findPosAux, hs] at h
      by_cases hk : k = key
      · rw [if_pos hk] at h
        obtain rfl : (h1 + i * h2) % size = p := by exact Option.some.inj h
        exact ⟨v, by rw [hs, hk]⟩
      · rw [if_neg hk] at h
        exact ih (i + 1) p h

theorem findPosAux_true_some (tbl : List (Slot V)) (size : Nat) (key : Key)
    (h1 h2 : Nat) :
    ∀ fuel i p, findPosAux tbl size key h1 h2 true i fuel = some p →
      slotAt tbl p = Slot.empty ∨ ∃ v, slotAt tbl p = Slot.occupied key v := by
  intro fuel
  induction fuel with
  | zero => intro i p h; simp [findPosAux] at h
  | succ fuel ih =>
    intro i p h
    cases hs : slotAt tbl ((h1 + i * h2) % size) with
    | empty =>
      rw [findPosAux, hs] at h
      obtain rfl : (h1 + i * h2) % size = p := by
        simpa using h
      exact Or.inl hs
    | deleted => rw [findPosAux, hs] at h; exact ih (i + 1) p h
    | junk => rw [findPosAux, hs] at h; exact ih (i + 1) p h
    | occupied k v =>
      simp only [findPosAux, hs] at h
      by_cases hk : k = key
      · rw [if_pos hk] at h
        obtain rfl : (h1 + i * h2) % size = p := Option.some.inj h
        exact Or.inr ⟨v, by rw [hs, hk]⟩
      · rw [if_neg hk] at h
        exact ih (i + 1) p h

theorem findPosAux_some_lt (tbl : List (Slot V)) (size : Nat) (key : Key)
    (h1 h2 : Nat) (b : Bool) (hsize : 0 < size) :
    ∀ fuel i p, findPosAux tbl size key h1 h2 b i fuel = some p →
      p < size := by
  intro fuel
  induction fuel with
  | zero => intro i p h; simp [findPosAux] at h
  | succ fuel ih =>
    intro i p h
    cases hs : slotAt tbl ((h1 + i * h2) % size) with
    | empty =>
      rw [findPosAux, hs] at h
      cases b with
      | false => simp at h
      | true =>
        obtain rfl : (h1 + i * h2) % size = p := by simpa using h
        exact Nat.mod_lt _ hsize
    | deleted => rw [findPosAux, hs] at h; exact ih (i + 1) p h
    | junk => rw [findPosAux, hs] at h; exact ih (i + 1) p h
    | occupied k v =>
      simp only [findPosAux, hs] at h
      by_cases hk : k = key
      · rw [if_pos hk] at h
        obtain rfl : (h1 + i * h2) % size = p := Option.some.inj h
        exact Nat.mod_lt _ hsize
      · rw [if_neg hk] at h
        exact ih (i + 1) p h

end WalkLemmas


section SetLemmas

variable {V : Type}

theorem findPosAux_set_of_empty (tbl : List (Slot V)) (size : Nat)
    (key : Key) (h1 h2 : Nat) (q : Nat) (s2 : Slot V)
    (hq : slotAt tbl q = Slot.empty) :
    ∀ fuel i p, findPosAux tbl size key h1 h2 false i fuel = some p →
      findPosAux (tbl.set q s2) size key h1 h2 false i fuel = some p := by
  intro fuel
  induction fuel with
  | zero => intro i p h; simp [findPosAux] at h
  | succ fuel ih =>
    intro i p h
    rw [findPosAux_succ] at h ⊢
    cases hs : slotAt tbl ((h1 + i * h2) % size) with
    | empty => rw [hs] at h; simp [stepOf] at h
    | deleted =>
      rw [hs] at h
      simp only [stepOf, Option.getD_none] at h
      have hne : q ≠ (h1 + i * h2) % size := by
        intro e; rw [← e, hq] at hs; exact Slot.noConfusion hs
      rw [slotAt_set_ne tbl q _ s2 hne, hs]
      simpa [stepOf] using ih (i + 1) p h
    | junk =>
      rw [hs] at h
      simp only [stepOf, Option.getD_none] at h
      have hne : q ≠ (h1 + i * h2) % size := by
        intro e; rw [← e, hq] at hs; exact Slot.noConfusion hs
      rw [slotAt_set_ne tbl q _ s2 hne, hs]
      simpa [stepOf] using ih (i + 1) p h
    | occupied k v =>
      rw [hs] at h
      have hne : q ≠ (h1 + i * h2) % size := by
        intro e; rw [← e, hq] at hs; exact Slot.noConfusion hs
      rw [slotAt_set_ne tbl q _ s2 hne, hs]
      by_cases hk : k = key
      · simpa [stepOf, hk] using h
      · simp only [stepOf, if_neg hk, Option.getD_none] at h ⊢
        exact ih (i + 1) p h

theorem findPosAux_set_found (tbl : List (Slot V)) (size : Nat) (key : Key)
    (h1 h2 : Nat) (p : Nat) (v : Option V) (hlen : p < tbl.length) :
    ∀ fuel i, findPosAux tbl size key h1 h2 false i fuel = some p →
      findPosAux (tbl.set p (Slot.occupied key v)) size key h1 h2 false
        i fuel = some p := by
  intro fuel
  induction fuel with
  | zero => intro i h; simp [findPosAux] at h
  | succ fuel ih =>
    intro i h
    rw [findPosAux_succ] at h ⊢
    cases hs : slotAt tbl ((h1 + i * h2) % size) with
    | empty => rw [hs] at h; simp [stepOf] at h
    | deleted =>
      rw [hs] at h
      simp only [stepOf, Option.getD_none] at h
      obtain ⟨w, hw⟩ := findPosAux_false_some tbl size key h1 h2 fuel (i + 1) p h
      have hne : p ≠ (h1 + i * h2) % size := by
        intro e; rw [← e, hw] at hs; exact Slot.noConfusion hs
      rw [slotAt_set_ne tbl p _ _ hne, hs]
      simpa [stepOf] using ih (i + 1) h
    | junk =>
      rw [hs] at h
      simp only [stepOf, Option.getD_none] at h
      obtain ⟨w, hw⟩ := findPosAux_false_some tbl size key h1 h2 fuel (i + 1) p h
      have hne : p ≠ (h1 + i * h2) % size := by
        intro e; rw [← e, hw] at hs; exact Slot.noConfusion hs
      rw [slotAt_set_ne tbl p _ _ hne, hs]
      simpa [stepOf] using ih (i + 1) h
    | occupied k w =>
      rw [hs] at h
      by_cases hk : k = key
      · simp only [stepOf, if_pos hk, Option.getD_some] at h
        obtain rfl : (h1 + i * h2) % size = p := Option.some.inj h
        rw [slotAt_set_self tbl _ _ hlen]
        simp [stepOf]
      · simp only [stepOf, if_neg hk, Option.getD_none] at h
        obtain ⟨w2, hw⟩ := findPosAux_false_some tbl size key h1 h2 fuel (i + 1) p h
        have hne : p ≠ (h1 + i * h2) % size := by
          intro e
          rw [← e, hw] at hs
          exact hk (Slot.occupied.inj hs).1.symm
        rw [slotAt_set_ne tbl p _ _ hne, hs]
        simp only [stepOf, if_neg hk, Option.getD_none]
        exact ih (i + 1) h

theorem findPosAux_set_insert (tbl : List (Slot V)) (size : Nat) (key : Key)
    (h1 h2 : Nat) (p : Nat) (v : Option V) (hlen : p < tbl.length) :
    ∀ fuel i, findPosAux tbl size key h1 h2 true i fuel = some p →
      findPosAux tbl size key h1 h2 false i fuel = none →
      findPosAux (tbl.set p (Slot.occupied key v)) size key h1 h2 false
        i fuel = some p := by
  intro fuel
  induction fuel with
  | zero => intro i ht _; simp [findPosAux] at ht
  | succ fuel ih =>
    intro i ht hf
    rw [findPosAux_succ] at ht hf ⊢
    cases hs : slotAt tbl ((h1 + i * h2) % size) with
    | empty =>
      rw [hs] at ht
      simp only [stepOf, if_pos rfl, Option.getD_some] at ht
      obtain rfl : (h1 + i * h2) % size = p := by simpa using ht
      rw [slotAt_set_self tbl _ _ hlen]
      simp [stepOf]
    | deleted =>
      rw [hs] at ht hf
      simp only [stepOf, Option.getD_none] at ht hf
      have hne : p ≠ (h1 + i * h2) % size := by
        intro e
        rcases findPosAux_true_some tbl size key h1 h2 fuel (i + 1) p ht with
          hemp | ⟨w, hw⟩
        · rw [← e, hemp] at hs; exact Slot.noConfusion hs
        · rw [← e, hw] at hs; exact Slot.noConfusion hs
      rw [slotAt_set_ne tbl p _ _ hne, hs]
      simpa [stepOf] using ih (i + 1) ht hf
    | junk =>
      rw [hs] at ht hf
      simp only [stepOf, Option.getD_none] at ht hf
      have hne : p ≠ (h1 + i * h2) % size := by
        intro e
        rcases findPosAux_true_some tbl size key h1 h2 fuel (i + 1) p ht with
          hemp | ⟨w, hw⟩
        · rw [← e, hemp] at hs; exact Slot.noConfusion hs
        · rw [← e, hw] at hs; exact Slot.noConfusion hs
      rw [slotAt_set_ne tbl p _ _ hne, hs]
      simpa [stepOf] using ih (i + 1) ht hf
    | occupied k w =>
      rw [hs] at ht hf
      by_cases hk : k = key
      · simp [stepOf, hk] at hf
      · simp only [stepOf, if_neg hk, Option.getD_none] at ht hf
        have hne : p ≠ (h1 + i * h2) % size := by
          intro e
          rcases findPosAux_true_some tbl size key h1 h2 fuel (i + 1) p ht with
            hemp | ⟨w2, hw⟩
          · rw [← e, hemp] at hs; exact Slot.noConfusion hs
          · rw [← e, hw] at hs
            exact hk (Slot.occupied.inj hs).1.symm
        rw [slotAt_set_ne tbl p _ _ hne, hs]
        simp only [stepOf, if_neg hk, Option.getD_none]
        exact ih (i + 1) ht hf

end SetLemmas

section TableLemmas

variable {V : Type}

theorem find_position_eq (t : HashTable V) (key : Key) (b : Bool)
    (hv : validate_key key = true) :
    HashTable.find_position t key b =
      findPosAux t.table t.size key (hash1 t.size key) (hash2 t.size key)
        b 0 t.size := by
  simp [HashTable.find_position, hv]

theorem find_position_valid (t : HashTable V) (key : Key) (b : Bool)
    (p : Nat) (h : HashTable.find_position t key b = some p) :
    validate_key key = true := by
  cases hv : validate_key key with
  | true => rfl
  | false => rw [HashTable.find_position, hv] at h; simp at h

theorem find_position_size_pos (t : HashTable V) (key : Key) (b : Bool)
    (p : Nat) (h : HashTable.find_position t key b = some p) : 0 < t.size := by
  rcases Nat.eq_zero_or_pos t.size with h0 | hpos
  · rw [find_position_eq t key b (find_position_valid t key b p h), h0] at h
    simp [findPosAux] at h
  · exact hpos

theorem find_position_lt (t : HashTable V) (key : Key) (b : Bool)
    (p : Nat) (h : HashTable.find_position t key b = some p) : p < t.size := by
  have hv := find_position_valid t key b p h
  rw [find_position_eq t key b hv] at h
  exact findPosAux_some_lt t.table t.size key _ _ b
    (find_position_size_pos t key b p (by rw [find_position_eq t key b hv]; exact h))
    t.size 0 p h

theorem find_position_false_occ (t : HashTable V) (key : Key) (p : Nat)
    (h : HashTable.find_position t key false = some p) :
    ∃ v, slotAt t.table p = Slot.occupied key v := by
  have hv := find_position_valid t key false p h
  rw [find_position_eq t key false hv] at h
  exact findPosAux_false_some t.table t.size key _ _ t.size 0 p h

theorem get_found (t : HashTable V) (key : Key) (p : Nat) (w : Option V)
    (hf : HashTable.find_position t key false = some p)
    (hs : slotAt t.table p = Slot.occupied key w) : HashTable.get t key = w := by
  simp only [HashTable.get, hf, hs]

theorem guard_of_count_ge (t : HashTable V) (h : (t.size : Int) ≤ t.count) :
    (t.size : Int) * 9 ≤ t.count * 10 := by
  have h0 : (0 : Int) ≤ (t.size : Int) := Int.natCast_nonneg _
  linarith

theorem add_of_found (t : HashTable V) (key : Key) (v : Option V) (p : Nat)
    (hguard : ¬ ((t.size : Int) * 9 ≤ t.count * 10 ∧ (t.size : Int) ≤ t.count))
    (hf : HashTable.find_position t key false = some p) :
    HashTable.add t key v =
      ({ t with table := t.table.set p (Slot.occupied key v) }, true) := by
  have hv := find_position_valid t key false p hf
  simp [HashTable.add, hv, hguard, hf]

theorem add_of_insert (t : HashTable V) (key : Key) (v : Option V) (p : Nat)
    (hguard : ¬ ((t.size : Int) * 9 ≤ t.count * 10 ∧ (t.size : Int) ≤ t.count))
    (hf : HashTable.find_position t key false = none)
    (hins : HashTable.find_position t key true = some p) :
    HashTable.add t key v =
      (⟨t.size, t.table.set p (Slot.occupied key v), t.count + 1⟩, true) := by
  have hv := find_position_valid t key true p hins
  simp [HashTable.add, hv, hguard, hf, hins]

theorem add_true_get (t : HashTable V) (key : Key) (v : Option V)
    (hwf : t.Wf) (h : (HashTable.add t key v).2 = true) :
    HashTable.get (HashTable.add t key v).1 key = v := by
  cases hv : validate_key key with
  | false => rw [HashTable.add] at h; simp [hv] at h
  | true =>
    by_cases hguard :
        ((t.size : Int) * 9 ≤ t.count * 10 ∧ (t.size : Int) ≤ t.count)
    · rw [HashTable.add] at h; simp [hv, hguard] at h
    · cases hf : HashTable.find_position t key false with
      | some p =>
        rw [add_of_found t key v p hguard hf]
        have hlen : p < t.table.length := by
          rw [hwf]; exact find_position_lt t key false p hf
        apply get_found _ key p v
        · rw [find_position_eq _ key false hv]
          rw [find_position_eq t key false hv] at hf
          exact findPosAux_set_found t.table t.size key _ _ p v hlen t.size 0 hf
        · exact slotAt_set_self t.table p _ hlen
      | none =>
        cases hins : HashTable.find_position t key true with
        | some p =>
          rw [add_of_insert t key v p hguard hf hins]
          have hlen : p < t.table.length := by
            rw [hwf]; exact find_position_lt t key true p hins
          apply get_found _ key p v
          · rw [find_position_eq _ key false hv]
            rw [find_position_eq t key true hv] at hins
            rw [find_position_eq t key false hv] at hf
            exact findPosAux_set_insert t.table t.size key _ _ p v hlen
              t.size 0 hins hf
          · exact slotAt_set_self t.table p _ hlen
        | none => rw [HashTable.add] at h; simp [hv, hguard, hf, hins] at h

end TableLemmas


section PreservationLemmas

variable {V : Type}

theorem find_position_update (t : HashTable V) (tbl2 : List (Slot V))
    (c2 : Int) (key : Key) (b : Bool) (hv : validate_key key = true) :
    HashTable.find_position ⟨t.size, tbl2, c2⟩ key b =
      findPosAux tbl2 t.size key (hash1 t.size key) (hash2 t.size key)
        b 0 t.size := by
  simp [HashTable.find_position, hv]

theorem get_update (t : HashTable V) (tbl2 : List (Slot V)) (c2 : Int)
    (key : Key) (p : Nat) (w : Option V)
    (hf : findPosAux tbl2 t.size key (hash1 t.size key) (hash2 t.size key)
      false 0 t.size = some p)
    (hv : validate_key key = true)
    (hs : slotAt tbl2 p = Slot.occupied key w) :
    HashTable.get ⟨t.size, tbl2, c2⟩ key = w := by
  apply get_found ⟨t.size, tbl2, c2⟩ key p w
  · rw [find_position_update t tbl2 c2 key false hv]; exact hf
  · exact hs

theorem stepOf_occupied_congr (key k2 : Key) (u v2 : Option V) :
    ∀ idx b, stepOf key (Slot.occupied k2 v2) idx b =
      stepOf key (Slot.occupied k2 u) idx b := by
  intro idx b; simp [stepOf]

theorem stepOf_deleted_of_other (key k2 : Key) (u : Option V)
    (hne : k2 ≠ key) :
    ∀ idx b, stepOf key (Slot.deleted : Slot V) idx b =
      stepOf key (Slot.occupied k2 u) idx b := by
  intro idx b; simp [stepOf, hne]

theorem get_add_other (t : HashTable V) (k k2 : Key) (v2 w : Option V)
    (p : Nat) (hwf : t.Wf) (hne : k2 ≠ k)
    (hf : HashTable.find_position t k false = some p)
    (hs : slotAt t.table p = Slot.occupied k w) :
    HashTable.get ((HashTable.add t k2 v2).1) k = w := by
  have hv : validate_key k = true := find_position_valid t k false p hf
  have hfa : findPosAux t.table t.size k (hash1 t.size k) (hash2 t.size k)
      false 0 t.size = some p := by
    rw [← find_position_eq t k false hv]; exact hf
  cases hv2 : validate_key k2 with
  | false =>
    rw [HashTable.add]
    simp only [hv2]
    simp
    exact get_found t k p w hf hs
  | true =>
    by_cases hguard :
        ((t.size : Int) * 9 ≤ t.count * 10 ∧ (t.size : Int) ≤ t.count)
    · rw [HashTable.add]
      simp only [hv2, hguard]
      simp
      exact get_found t k p w hf hs
    · cases hfq : HashTable.find_position t k2 false with
      | some q =>
        rw [add_of_found t k2 v2 q hguard hfq]
        obtain ⟨u, hu⟩ := find_position_false_occ t k2 q hfq
        have hpq : p ≠ q := by
          intro e; rw [e, hu] at hs
          exact hne (Slot.occupied.inj hs).1
        have hstep : ∀ idx, stepOf k (Slot.occupied k2 v2) idx false =
            stepOf k (slotAt t.table q) idx false := by
          intro idx; rw [hu]; exact stepOf_occupied_congr k k2 u v2 idx false
        apply get_update t _ t.count k p w
        · rw [findPosAux_set_congr t.table t.size k _ _ false q
            (Slot.occupied k2 v2) hstep t.size 0]
          exact hfa
        · exact hv
        · rw [slotAt_set_ne t.table q p _ (Ne.symm hpq)]; exact hs
      | none =>
        cases hins : HashTable.find_position t k2 true with
        | some q =>
          rw [add_of_insert t k2 v2 q hguard hfq hins]
          have hvq := find_position_valid t k2 true q hins
          have hinsa : findPosAux t.table t.size k2 (hash1 t.size k2)
              (hash2 t.size k2) true 0 t.size = some q := by
            rw [← find_position_eq t k2 true hvq]; exact hins
          rcases findPosAux_true_some t.table t.size k2 _ _ t.size 0 q hinsa
            with hemp | ⟨u, hu⟩
          · have hpq : p ≠ q := by
              intro e; rw [e, hemp] at hs; exact Slot.noConfusion hs
            apply get_update t _ (t.count + 1) k p w
            · exact findPosAux_set_of_empty t.table t.size k _ _ q
                (Slot.occupied k2 v2) hemp t.size 0 p hfa
            · exact hv
            · rw [slotAt_set_ne t.table q p _ (Ne.symm hpq)]; exact hs
          · have hpq : p ≠ q := by
              intro e; rw [e, hu] at hs
              exact hne (Slot.occupied.inj hs).1
            have hstep : ∀ idx, stepOf k (Slot.occupied k2 v2) idx false =
                stepOf k (slotAt t.table q) idx false := by
              intro idx
              rw [hu]
              exact stepOf_occupied_congr k k2 u v2 idx false
            apply get_update t _ (t.count + 1) k p w
            · rw [findPosAux_set_congr t.table t.size k _ _ false q
                (Slot.occupied k2 v2) hstep t.size 0]
              exact hfa
            · exact hv
            · rw [slotAt_set_ne t.table q p _ (Ne.symm hpq)]; exact hs
        | none =>
          rw [HashTable.add]
          simp only [hv2, hguard, hfq, hins]
          simp
          exact get_found t k p w hf hs

theorem delete_of_found (t : HashTable V) (key : Key) (p : Nat)
    (hf : HashTable.find_position t key false = some p) :
    (HashTable.delete t key).1 =
      ⟨t.size, t.table.set p Slot.deleted, t.count - 1⟩ ∧
    (HashTable.delete t key).2.1 = true := by
  constructor <;> simp [HashTable.delete, hf]

theorem get_delete_other (t : HashTable V) (k kDel : Key) (w : Option V)
    (p : Nat) (hwf : t.Wf) (hne : kDel ≠ k)
    (hf : HashTable.find_position t k false = some p)
    (hs : slotAt t.table p = Slot.occupied k w) :
    HashTable.get ((HashTable.delete t kDel).1) k = w := by
  have hv : validate_key k = true := find_position_valid t k false p hf
  have hfa : findPosAux t.table t.size k (hash1 t.size k) (hash2 t.size k)
      false 0 t.size = some p := by
    rw [← find_position_eq t k false hv]; exact hf
  cases hfq : HashTable.find_position t kDel false with
  | none =>
    rw [HashTable.delete]
    simp only [hfq]
    exact get_found t k p w hf hs
  | some q =>
    rw [(delete_of_found t kDel q hfq).1]
    obtain ⟨u, hu⟩ := find_position_false_occ t kDel q hfq
    have hpq : p ≠ q := by
      intro e; rw [e, hu] at hs
      exact hne (Slot.occupied.inj hs).1
    have hstep : ∀ idx, stepOf k (Slot.deleted : Slot V) idx false =
        stepOf k (slotAt t.table q) idx false := by
      intro idx
      rw [hu]
      exact stepOf_deleted_of_other k kDel u hne idx false
    apply get_update t _ (t.count - 1) k p w
    · rw [findPosAux_set_congr t.table t.size k _ _ false q Slot.deleted
        hstep t.size 0]
      exact hfa
    · exact hv
    · rw [slotAt_set_ne t.table q p _ (Ne.symm hpq)]; exact hs

end PreservationLemmas

/-!
Claim theorems.
-/

/-- Claim C1 is refuted by the code: the claim (and the docstring of hash2)
promises a secondary hash coprime with the table size, but the code only
forces the value to be nonzero and odd, which does not make it coprime
with the shipped even size 2500 = 4 times 625. At the valid key 000C00 the
secondary hash is 2055, sharing the factor 5 with 2500, and consequently
the probe sequence misses slot 1648 (indeed every slot not congruent to
1647 modulo 5) no matter how many probes are made, so it is not a
permutation of all 2500 slots. -/
theorem C1_hash2_not_coprime_at_size_2500 :
    validate_key k000C00 = true ∧
    hash2 2500 k000C00 = 2055 ∧
    Nat.gcd (hash2 2500 k000C00) 2500 = 5 ∧
    hash1 2500 k000C00 = 1647 ∧
    ∀ i : Nat,
      (hash1 2500 k000C00 + i * hash2 2500 k000C00) % 2500 ≠ 1648 := by
  refine ⟨by decide, by decide, by decide, by decide, ?_⟩
  intro i heq
  have e1 : hash1 2500 k000C00 = 1647 := by decide
  have e2 : hash2 2500 k000C00 = 2055 := by decide
  rw [e1, e2] at heq
  have h5 : (1647 + i * 2055) % 2500 % 5 = 1647 % 5 := by
    rw [Nat.mod_mod_of_dvd _ (by norm_num : (5 : Nat) ∣ 2500)]
    have hsplit : 1647 + i * 2055 = 1647 + (i * 411) * 5 := by ring
    rw [hsplit, Nat.add_mul_mod_self_right]
  rw [heq] at h5
  norm_num at h5

/-- Claim C2 is refuted by the code: find_position with for_insert true
executes continue on a tombstone, so insertion skips reusable tombstone
slots instead of occupying the first Empty-or-Tombstone slot (the
docstring of find_position says a deleted position may be returned, but it
never is). Concretely, at size 2: insert kA (slot 0), delete kA (slot 0
becomes a tombstone), insert kA again, and the key lands at slot 1 while
slot 0 keeps the tombstone. -/
theorem C2_tombstone_never_reused :
    hash1 2 kA = 0 ∧
    slotAt exC2b.table 0 = Slot.deleted ∧
    exC2b.count = 0 ∧
    (HashTable.add exC2b kA (some 2)).2 = true ∧
    slotAt (HashTable.add exC2b kA (some 2)).1.table 0 = Slot.deleted ∧
    slotAt (HashTable.add exC2b kA (some 2)).1.table 1 =
      Slot.occupied kA (some 2) := by
  decide

/-- Claim C3 is refuted by the code: clear_table of src/main.py assigns a
list of empty Python lists, not the list of None written by the
constructor, so the cleared backing store differs from a freshly
constructed one and every subsequent insertion fails, because no slot of
the cleared store is Empty. -/
theorem C3_clear_table_breaks_the_table :
    exC3.count = 0 ∧
    exC3.table ≠ (HashTable.init Nat 2).table ∧
    validate_key kB = true ∧
    HashTable.add exC3 kB (some 2) = (exC3, false) ∧
    HashTable.get exC3 kA = none := by
  decide

/-- Claim C4 counterexample: on an empty size-3 table, get, delete and
search_by_key return exactly the same values for the malformed key 123 as
for the valid but absent key 123A45, so the caller cannot distinguish an
invalid key from a well-formed absent one by the returned value. -/
theorem C4_invalid_indistinguishable_from_absent :
    validate_key kBad = false ∧
    validate_key kA = true ∧
    HashTable.get (HashTable.init Nat 3) kBad =
      HashTable.get (HashTable.init Nat 3) kA ∧
    HashTable.delete (HashTable.init Nat 3) kBad =
      HashTable.delete (HashTable.init Nat 3) kA ∧
    HashTable.search_by_key (HashTable.init Nat 3) kBad =
      HashTable.search_by_key (HashTable.init Nat 3) kA ∧
    HashTable.get (HashTable.init Nat 3) kA = none := by
  decide

/-- Claim C4 (amended): every public operation does reject an invalid key
immediately and without mutating state (insert returns false, get returns
None, delete returns failure with an empty collision list, search returns
None), but these returned values coincide with the not-found results of
the same operations on a well-formed absent key, so the two outcomes are
not distinguishable from the returned value alone. -/
theorem C4_invalid_key_rejected_without_mutation (V : Type)
    (t : HashTable V) (key : Key) (v : Option V)
    (hinv : validate_key key = false) :
    HashTable.add t key v = (t, false) ∧
    HashTable.get t key = none ∧
    HashTable.delete t key = (t, false, []) ∧
    HashTable.search_by_key t key = none := by
  have hf : ∀ b, HashTable.find_position t key b = none := by
    intro b; rw [HashTable.find_position, hinv]; simp
  refine ⟨?_, ?_, ?_, ?_⟩
  · rw [HashTable.add]; simp [hinv]
  · simp only [HashTable.get, hf false]
  · simp only [HashTable.delete, hf false]
  · simp only [HashTable.search_by_key, hf false]

/-- Claim C4 witness: the amended statement evaluated on an empty size-3
table and the malformed key 123. -/
theorem C4_invalid_key_rejected_without_mutation_witness :
    HashTable.add (HashTable.init Nat 3) kBad none =
      (HashTable.init Nat 3, false) ∧
    HashTable.get (HashTable.init Nat 3) kBad = none ∧
    HashTable.delete (HashTable.init Nat 3) kBad =
      (HashTable.init Nat 3, false, []) ∧
    HashTable.search_by_key (HashTable.init Nat 3) kBad = none :=
  C4_invalid_key_rejected_without_mutation Nat (HashTable.init Nat 3)
    kBad none (by decide)

/-- Claim C5 counterexample: at size 1, inserting kA and deleting it
leaves a table whose count is 0, strictly below the capacity 1, yet the
next insertion of the valid key kB returns false and leaves the state
unchanged, because the only slot is a tombstone and the insertion scan
skips tombstones; so refusal is not characterized by invalid key or
count at capacity alone. -/
theorem C5_refusal_below_capacity :
    validate_key kB = true ∧
    exC5.count = 0 ∧
    exC5.size = 1 ∧
    (HashTable.add exC5 kB (some 2)).2 = false ∧
    (HashTable.add exC5 kB (some 2)).1 = exC5 := by
  decide

/-- Claim C5 (amended): insertion returns false with the entire state
unchanged exactly when the key is invalid, or count has reached the size,
or the probe scan finds neither the key nor any Empty slot within size
steps (tombstone or junk slots can exhaust the probe sequence even below
capacity); in particular the 90 percent threshold never by itself causes
a refusal or a mutation. -/
theorem C5_insert_refusal_characterization (V : Type) (t : HashTable V)
    (key : Key) (v : Option V) :
    ((HashTable.add t key v).2 = false ∧ (HashTable.add t key v).1 = t) ↔
      (validate_key key = false ∨ (t.size : Int) ≤ t.count ∨
        (HashTable.find_position t key false = none ∧
         HashTable.find_position t key true = none)) := by
  cases hv : validate_key key with
  | false =>
    rw [HashTable.add]
    simp [hv]
  | true =>
    by_cases hguard :
        ((t.size : Int) * 9 ≤ t.count * 10 ∧ (t.size : Int) ≤ t.count)
    · have hadd : HashTable.add t key v = (t, false) := by
        rw [HashTable.add]; simp [hv, hguard]
      rw [hadd]
      simp [hguard.2]
    · have hnc : ¬ (t.size : Int) ≤ t.count := fun hc =>
        hguard ⟨guard_of_count_ge t hc, hc⟩
      cases hf : HashTable.find_position t key false with
      | some p =>
        rw [add_of_found t key v p hguard hf]
        simp [hv, hnc, hf]
      | none =>
        cases hins : HashTable.find_position t key true with
        | some p =>
          rw [add_of_insert t key v p hguard hf hins]
          simp [hv, hnc, hins]
        | none =>
          have hadd : HashTable.add t key v = (t, false) := by
            rw [HashTable.add]; simp [hv, hguard, hf, hins]
          rw [hadd]
          simp [hf, hins]

/-- Claim C6 counterexample: on a full size-1 table holding kA with value
1, re-inserting the present key kA with the different value 2 is refused
(the capacity guard fires before the upsert is attempted), and the lookup
still returns the old value 1; so re-inserting an already-present key
does not always succeed. -/
theorem C6_full_table_upsert_refused :
    validate_key kA = true ∧
    HashTable.find_position exC6 kA false = some 0 ∧
    exC6.count = 1 ∧
    exC6.size = 1 ∧
    (HashTable.add exC6 kA (some 2)).2 = false ∧
    HashTable.get exC6 kA = some 1 := by
  decide

/-- Claim C6 (amended): on a well-formed table, (1) whenever an insertion
succeeds the immediate lookup of the key returns the inserted value; (2)
when the key is already present and count is strictly below the size, the
re-insertion succeeds, overwrites in place with count unchanged, and
lookup returns the new value (at count equal to size even an upsert is
refused by the capacity guard); (3) an insertion or deletion of any other
key preserves the looked-up value of a present key. -/
theorem C6_insert_upsert_lookup :
    (∀ (V : Type) (t : HashTable V) (k : Key) (v : Option V),
        t.Wf → (HashTable.add t k v).2 = true →
        HashTable.get (HashTable.add t k v).1 k = v)
  ∧ (∀ (V : Type) (t : HashTable V) (k : Key) (p : Nat) (v2 : Option V),
        t.Wf → HashTable.find_position t k false = some p →
        t.count < (t.size : Int) →
        (HashTable.add t k v2).2 = true ∧
        (HashTable.add t k v2).1.count = t.count ∧
        HashTable.get (HashTable.add t k v2).1 k = v2)
  ∧ (∀ (V : Type) (t : HashTable V) (k k2 : Key) (p : Nat)
        (w v2 : Option V),
        t.Wf → HashTable.find_position t k false = some p →
        slotAt t.table p = Slot.occupied k w → k2 ≠ k →
        HashTable.get ((HashTable.add t k2 v2).1) k = w ∧
        HashTable.get ((HashTable.delete t k2).1) k = w) := by
  refine ⟨?_, ?_, ?_⟩
  · intro V t k v hwf h
    exact add_true_get t k v hwf h
  · intro V t k p v2 hwf hfound hcap
    have hguard : ¬ ((t.size : Int) * 9 ≤ t.count * 10 ∧
        (t.size : Int) ≤ t.count) :=
      fun hg => absurd hg.2 (not_le.mpr hcap)
    have h2 : (HashTable.add t k v2).2 = true := by
      rw [add_of_found t k v2 p hguard hfound]
    have hcount : (HashTable.add t k v2).1.count = t.count := by
      rw [add_of_found t k v2 p hguard hfound]
    exact ⟨h2, hcount, add_true_get t k v2 hwf h2⟩
  · intro V t k k2 p w v2 hwf hfound hslot hne
    exact ⟨get_add_other t k k2 v2 w p hwf hne hfound hslot,
           get_delete_other t k k2 w p hwf hne hfound hslot⟩

/-- Claim C6 witness: the three parts of the amended statement evaluated
on the size-2 table holding kA with value 1 (insert of value 9, upsert of
value 7, and non-interference of an insert and a delete of kB). -/
theorem C6_insert_upsert_lookup_witness :
    HashTable.get (HashTable.add exC2a kA (some 9)).1 kA = some 9 ∧
    ((HashTable.add exC2a kA (some 7)).2 = true ∧
     (HashTable.add exC2a kA (some 7)).1.count = exC2a.count ∧
     HashTable.get (HashTable.add exC2a kA (some 7)).1 kA = some 7) ∧
    (HashTable.get ((HashTable.add exC2a kB (some 5)).1) kA = some 1 ∧
     HashTable.get ((HashTable.delete exC2a kB).1) kA = some 1) :=
  ⟨C6_insert_upsert_lookup.1 Nat exC2a kA (some 9) (by decide) (by decide),
   C6_insert_upsert_lookup.2.1 Nat exC2a kA 0 (some 7) (by decide)
     (by decide) (by decide),
   C6_insert_upsert_lookup.2.2 Nat exC2a kA kB 0 (some 1) (some 5)
     (by decide) (by decide) (by decide) (by decide)⟩

/-- Claim C7: when deletion of k succeeds at slot p on a well-formed
table, it reports success, decrements count by exactly one, marks slot p
with the tombstone, and every other key that was present before the
deletion is still found by lookup with its stored value: tombstones do
not break probe continuation. -/
theorem C7_delete_noninterference (V : Type) (t : HashTable V) (k : Key)
    (p : Nat) (hwf : t.Wf)
    (hf : HashTable.find_position t k false = some p) :
    (HashTable.delete t k).2.1 = true ∧
    (HashTable.delete t k).1.count = t.count - 1 ∧
    slotAt (HashTable.delete t k).1.table p = Slot.deleted ∧
    ∀ (k2 : Key) (p2 : Nat) (w2 : Option V), k2 ≠ k →
      HashTable.find_position t k2 false = some p2 →
      slotAt t.table p2 = Slot.occupied k2 w2 →
      HashTable.get (HashTable.delete t k).1 k2 = w2 := by
  obtain ⟨hd1, hd2⟩ := delete_of_found t k p hf
  refine ⟨hd2, by rw [hd1], ?_, ?_⟩
  · rw [hd1]
    exact slotAt_set_self t.table p _
      (by rw [hwf]; exact find_position_lt t k false p hf)
  · intro k2 p2 w2 hne hf2 hs2
    exact get_delete_other t k2 k w2 p2 hwf (Ne.symm hne) hf2 hs2

/-- Claim C7 witness: deleting kA from the size-2 table holding kA and kB
succeeds, count drops from 2 to 1, slot 0 becomes a tombstone, and kB is
still found with its value 2. -/
theorem C7_delete_noninterference_witness :
    (HashTable.delete exT2 kA).2.1 = true ∧
    (HashTable.delete exT2 kA).1.count = 1 ∧
    slotAt (HashTable.delete exT2 kA).1.table 0 = Slot.deleted ∧
    HashTable.get (HashTable.delete exT2 kA).1 kB = some 2 := by
  have h := C7_delete_noninterference Nat exT2 kA 0 (by decide) (by decide)
  exact ⟨h.1, h.2.1.trans (by decide), h.2.2.1,
    h.2.2.2 kB 1 (some 2) (by decide) (by decide) (by decide)⟩

/-- Membership in the collision list computed by the code coincides with
the collision-set description of claim C8: the code appends a live key on
a primary-hash match, or otherwise on the path condition, and finally
removes duplicates, which is exactly the union with duplicates removed. -/
theorem mem_find_collision_elements (V : Type) (t : HashTable V)
    (dkey : Key) (dpos : Nat) (x : Key) :
    x ∈ HashTable.find_collision_elements t dkey dpos ↔
      collidesWith t dkey dpos x := by
  simp only [HashTable.find_collision_elements, List.mem_dedup,
    List.mem_filterMap, List.mem_range]
  constructor
  · rintro ⟨i, hi, hfi⟩
    cases hsl : slotAt t.table i with
    | empty => simp only [hsl] at hfi; exact Option.noConfusion hfi
    | deleted => simp only [hsl] at hfi; exact Option.noConfusion hfi
    | junk => simp only [hsl] at hfi; exact Option.noConfusion hfi
    | occupied k v =>
      simp only [hsl] at hfi
      by_cases h1 : k = dkey
      · rw [if_pos h1] at hfi; exact absurd hfi (by simp)
      · rw [if_neg h1] at hfi
        by_cases h2 : hash1 t.size k = hash1 t.size dkey
        · rw [if_pos h2] at hfi
          obtain rfl : k = x := Option.some.inj hfi
          exact ⟨i, v, hi, hsl, h1, Or.inl h2⟩
        · rw [if_neg h2] at hfi
          by_cases h3 : i ∈ deletedPath t.size (hash1 t.size dkey)
              (hash2 t.size dkey) dpos 0 t.size ∧
              hash1 t.size k ∈ deletedPath t.size (hash1 t.size dkey)
              (hash2 t.size dkey) dpos 0 t.size
          · rw [if_pos h3] at hfi
            obtain rfl : k = x := Option.some.inj hfi
            exact ⟨i, v, hi, hsl, h1, Or.inr h3⟩
          · rw [if_neg h3] at hfi; exact absurd hfi (by simp)
  · rintro ⟨i, v, hi, hsl, hxd, hcond⟩
    refine ⟨i, hi, ?_⟩
    simp only [hsl]
    rw [if_neg hxd]
    by_cases h2 : hash1 t.size x = hash1 t.size dkey
    · rw [if_pos h2]
    · rw [if_neg h2]
      rcases hcond with hc | hc
      · exact absurd hc h2
      · rw [if_pos hc]

/-- Claim C8: when deletion of k succeeds at slot p, a key belongs to the
returned collision list exactly when it is a live key distinct from k
whose primary hash equals the primary hash of k, or whose slot index and
own primary hash both lie on the probe path of k from its primary hash up
to and including p; duplicates are removed. -/
theorem C8_collision_set (V : Type) (t : HashTable V) (k : Key) (p : Nat)
    (x : Key) (hf : HashTable.find_position t k false = some p) :
    x ∈ (HashTable.delete t k).2.2 ↔
      collidesWith (HashTable.delete t k).1 k p x := by
  obtain ⟨w, hs⟩ := find_position_false_occ t k p hf
  have h22 : (HashTable.delete t k).2.2 =
      HashTable.find_collision_elements
        ⟨t.size, t.table.set p Slot.deleted, t.count - 1⟩ k p := by
    simp [HashTable.delete, hf, hs]
  have h1 : (HashTable.delete t k).1 =
      ⟨t.size, t.table.set p Slot.deleted, t.count - 1⟩ :=
    (delete_of_found t k p hf).1
  rw [h22, h1]
  exact mem_find_collision_elements V _ k p x

/-- Claim C8 witness: in the size-5 table where kA and kC share the
primary hash 0, deleting kA at slot 0 puts kC in the collision list, and
the membership equivalence of the claim holds at kC. -/
theorem C8_collision_set_witness :
    kC ∈ (HashTable.delete exT5 kA).2.2 ↔
      collidesWith (HashTable.delete exT5 kA).1 kA 0 kC :=
  C8_collision_set Nat exT5 kA 0 kC (by decide)

/-- Claim C9 (spec-modelled): for the chaining variant, insertion of a
valid key is refused exactly when the capacity policy fires (average
chain length above 20, or all buckets nonempty and average above 15), and
a refused insertion leaves the table unchanged; in particular once the
average exceeds 20 the next insert fails with count unchanged. -/
theorem C9_chain_capacity (V : Type) (t : ChainTable V) (k : Key)
    (v : Option V) (hv : chain_validate_key k = true) :
    ((chainAdd t k v).2 = false ↔ chainRefuse t = true) ∧
    ((chainAdd t k v).2 = false → (chainAdd t k v).1 = t) := by
  cases hr : chainRefuse t with
  | true =>
    have hadd : chainAdd t k v = (t, false) := by
      rw [chainAdd]; simp [hv, hr]
    rw [hadd]
    simp
  | false =>
    have h2 : (chainAdd t k v).2 = true := by
      rw [chainAdd]
      simp only [hv, hr]
      simp only [Bool.false_eq_true, if_false, not_true_eq_false]
      split <;> simp
    constructor
    · rw [h2]; simp
    · intro hc; rw [h2] at hc; cases hc

/-- Claim C9 witness: a chaining table with one bucket of 21 entries has
average chain length 21, above the hard bound, so the next insertion of
the valid key 1ABCD2 fails and the table is unchanged. -/
theorem C9_chain_capacity_witness :
    chainRefuse chainFull = true ∧
    (chainAdd chainFull cKey (some 5)).2 = false ∧
    (chainAdd chainFull cKey (some 5)).1 = chainFull := by
  have h := C9_chain_capacity Nat chainFull cKey (some 5) (by decide)
  have hr : chainRefuse chainFull = true := by decide
  exact ⟨hr, h.1.mpr hr, h.2 (h.1.mpr hr)⟩

/-- Claim C10: after a successful insertion of a key with value None, the
lookup of that key returns None, which is the same value the lookup
returns for any absent key, so a stored None is not distinguishable from
a missing key at the public interface. -/
theorem C10_stored_none_indistinguishable (V : Type) (t t2 : HashTable V)
    (k k2 : Key) (hwf : t.Wf)
    (hsucc : (HashTable.add t k none).2 = true)
    (habs : HashTable.find_position t2 k2 false = none) :
    HashTable.get (HashTable.add t k none).1 k = none ∧
    HashTable.get t2 k2 = none := by
  refine ⟨add_true_get t k none hwf hsucc, ?_⟩
  simp only [HashTable.get, habs]

/-- Claim C10 witness: inserting kA with value None into an empty size-2
table succeeds and its lookup returns None, the same value looked up for
the absent key kB. -/
theorem C10_stored_none_indistinguishable_witness :
    HashTable.get (HashTable.add (HashTable.init Nat 2) kA none).1 kA =
      none ∧
    HashTable.get (HashTable.init Nat 2) kB = none :=
  C10_stored_none_indistinguishable Nat (HashTable.init Nat 2)
    (HashTable.init Nat 2) kA kB (by decide) (by decide) (by decide)
